import Mathlib

/-!
# My_Alarm: the pending-alarm list, the alarm thread and the per-alarm threads

A shallow embedding of `My_Alarm.c`.

* The singly linked `alarm_list` (nodes chained through `link`, `NULL` at the end)
  is a `List alarm_t`: the head of the list is the node `alarm_list` points to.
* `int seconds` holds a 32-bit two's complement value: what `%d` stores is reduced
  to that range (`storeInt`). `time_t` values are mathematical integers (`Int`):
  signed overflow of `time_t` is undefined in C, so the embedding describes the
  executions in which `time(NULL) + seconds` does not overflow.
* Text (`char[]`) is a `List Char` without the terminating NUL.
* What a thread does that another thread or the terminal can see is recorded as a
  list of `Event`s in program order.
-/

namespace My_Alarm

/-! ## Data model -/

/-- The `alarm_t` record of the source without its `link` field, which is the list
structure itself. `message` is the text held in `char message[64]`. -/
structure alarm_t where
  seconds : Int
  time : Int
  message : List Char
deriving DecidableEq, Repr

/-- What a thread does that is visible outside it, in program order. -/
inductive Event where
  /-- Call `printf ("alarm> ")`. -/
  | prompt
  /-- Call `fprintf (stderr, "Bad command\n")`. -/
  | badCommand
  /-- Call `malloc (sizeof (alarm_t))` returning a non-NULL pointer. -/
  | malloc
  /-- Call `free` on an alarm record. -/
  | free
  /-- Call `pthread_mutex_lock (&alarm_mutex)` returning 0. -/
  | lock
  /-- Call `pthread_mutex_unlock (&alarm_mutex)` returning 0. -/
  | unlock
  /-- Read of `alarm_list` or of a field of a node chained into it -/
  | listRead
  /-- Write to `alarm_list` or to the `link` field of a node chained into it -/
  | listWrite
  /-- Call `sleep (n)`. -/
  | sleep (n : Int)
  /-- Call `printf("Alarm Received at <%d>: <%d %s>\n", ...)` -/
  | received (at_ : Int) (seconds : Int) (message : List Char)
  /-- Call `printf("Alarm Retrieved at <%d>:<%d %s>\n", ...)` -/
  | retrieved (at_ : Int) (seconds : Int) (message : List Char)
  /-- Call `printf("Alarm: >: <%d %s>\n", ...)` -/
  | tick (seconds : Int) (message : List Char)
  /-- Call `printf("Alarm Expired at <%d>:<%d %s>\n", ...)` -/
  | expired (at_ : Int) (seconds : Int) (message : List Char)
  /-- Call `pthread_create(&threadTemp, NULL, new_thread_function, alarm)` -/
  | create (alarm : alarm_t)
deriving DecidableEq, Repr

/-! ## The sorted insertion of `main` (lines 204-224) -/

/-- The insertion loop of `main`: walk the list from `alarm_list`; at the first node
`next` with `next->time >= alarm->time` link `alarm` in front of it and stop; when
the walk reaches `NULL`, link `alarm` at the end. -/
def insertAlarm (alarm : alarm_t) : List alarm_t → List alarm_t
  | [] => [alarm]
  | next :: rest =>
    if next.time ≥ alarm.time then alarm :: next :: rest
    else next :: insertAlarm alarm rest

/-- The accesses to the shared list made by the insertion loop, in program order:
`next = *last` reads a link, `next->time` reads a node, `*last = alarm` writes a
link. -/
def insertAccesses (alarm : alarm_t) : List alarm_t → List Event
  | [] => [Event.listRead, Event.listWrite]
  | next :: rest =>
    if next.time ≥ alarm.time then [Event.listRead, Event.listRead, Event.listWrite]
    else Event.listRead :: Event.listRead :: insertAccesses alarm rest

/-! ## The removal of `alarm_thread` (lines 122-135) -/

/-- The removal of `alarm_thread`: `alarm = alarm_list`; when it is not `NULL`,
`alarm_list = alarm->link`. Returns the detached node, if any, and the new list. -/
def removeEarliest : List alarm_t → Option alarm_t × List alarm_t
  | [] => (none, [])
  | alarm :: link => (some alarm, link)

/-- One iteration of the `while (1)` loop of `alarm_thread`, given the value `now`
that `time(NULL)` returns: the new list and the events of the iteration. On an empty
list the source assigns `sleep_time = 1` and does nothing else (the local
`sleep_time` is never passed to `sleep`); otherwise it unlinks the head, prints the
retrieval line and calls `pthread_create`, whose status is stored and never read.
The function calls neither `pthread_mutex_lock` nor `pthread_mutex_unlock`. -/
def alarm_thread_iter (now : Int) (alarm_list : List alarm_t) :
    List alarm_t × List Event :=
  match removeEarliest alarm_list with
  | (none, rest) => (rest, [Event.listRead])
  | (some alarm, rest) =>
    (rest, [Event.listRead, Event.listRead, Event.listWrite,
            Event.retrieved now alarm.seconds alarm.message, Event.create alarm])

/-! ## The per-alarm thread `new_thread_function` (lines 60-101) -/

/-- The loop `while((start++) < end) { sleep(sleep_t); printf(...); }` with
`sleep_t = 1`: the test compares the value of `start` before the increment. -/
def countdown (givenAlarm : alarm_t) (start end_ : Int) : List Event :=
  if start < end_ then
    Event.sleep 1 :: Event.tick givenAlarm.seconds givenAlarm.message ::
      countdown givenAlarm (start + 1) end_
  else []
termination_by (end_ - start).toNat
decreasing_by omega

/-- The body of `new_thread_function`: `clock0` is what the first `time(NULL)`
returns (`start`), `clock1` what the one in the final `printf` returns. -/
def new_thread_function (givenAlarm : alarm_t) (clock0 clock1 : Int) : List Event :=
  let start := clock0
  let end_ := start + givenAlarm.seconds
  countdown givenAlarm start end_ ++
    [Event.expired clock1 givenAlarm.seconds givenAlarm.message, Event.free]

/-! ## Reading a command: `sscanf (line, "%d %64[^\n]", ...)` (lines 172-188)

`sscanf` is the C library's; its three directives are embedded as the C standard
describes them (7.21.6.2). -/

/-- The C locale's `isspace`. -/
def isspace (c : Char) : Bool :=
  c = ' ' || c = '\t' || c = '\n' || c = '\x0b' || c = '\x0c' || c = '\r'

/-- Skipping input white space, as `%d` and a blank in the format do. -/
def skipSpace (input : List Char) : List Char := input.dropWhile isspace

/-- The value of a run of decimal digits. -/
def digitsValue (ds : List Char) : Nat :=
  ds.foldl (fun acc c => 10 * acc + (c.toNat - 48)) 0

/-- The optional sign in front of the digits of `%d`: whether it is a minus, and the
input after it. -/
def scanSign : List Char → Bool × List Char
  | '-' :: t => (true, t)
  | '+' :: t => (false, t)
  | s => (false, s)

/-- The `long` that `strtol` makes of a decimal value on a platform with a 64-bit
`long`: values outside the range are replaced by `LONG_MIN` or `LONG_MAX`. -/
def saturateLong (v : Int) : Int :=
  if v < -(2 ^ 63) then -(2 ^ 63) else if 2 ^ 63 - 1 < v then 2 ^ 63 - 1 else v

/-- The cast of a `long` to a 32-bit `int`: the low 32 bits, read in two's
complement. -/
def toInt32 (v : Int) : Int := (v + 2 ^ 31) % 2 ^ 32 - 2 ^ 31

/-- The `int` that `%d` stores for a decimal value: the C library converts the digits
with `strtol` and stores the `long` cast to `int`. -/
def storeInt (v : Int) : Int := toInt32 (saturateLong v)

/-- The `%d` directive: skip white space, take an optional sign and the longest run
of digits; no digit is a failure. Returns the `int` stored into `alarm->seconds` and
the unread input. -/
def scanInt (input : List Char) : Option (Int × List Char) :=
  let signed := scanSign (skipSpace input)
  let ds := signed.2.takeWhile Char.isDigit
  if ds = [] then none
  else some (storeInt (if signed.1 then - (digitsValue ds : Int) else (digitsValue ds : Int)),
             signed.2.dropWhile Char.isDigit)

/-- The `%64[^\n]` directive: take the longest run of characters other than
new-line, at most 64 of them, without skipping white space; no character is a
failure. The characters taken are stored followed by a terminating NUL. -/
def scanSet64 (input : List Char) : Option (List Char) :=
  let m := (input.takeWhile (fun c => c ≠ '\n')).take 64
  if m = [] then none else some m

/-- The outcome of the `sscanf` call: `EOF` when the input ends before the first
conversion, else the number of fields assigned with their values. -/
inductive ScanResult where
  | eof
  | zero
  | one (seconds : Int)
  | two (seconds : Int) (message : List Char)
deriving DecidableEq, Repr

/-- The call `sscanf (line, "%d %64[^\n]", &alarm->seconds, alarm->message)`. -/
def sscanf (line : List Char) : ScanResult :=
  match skipSpace line with
  | [] => ScanResult.eof
  | _ :: _ =>
    match scanInt line with
    | none => ScanResult.zero
    | some (seconds, rest) =>
      match scanSet64 (skipSpace rest) with
      | none => ScanResult.one seconds
      | some message => ScanResult.two seconds message

/-! ## One iteration of the command loop of `main` (lines 170-236) -/

/-- What the environment gives one iteration of the loop of `main`: the line
`fgets` read (`none` for `NULL`), whether `malloc` returned a block, the statuses
of `pthread_mutex_lock` and `pthread_mutex_unlock`, and the value of `time(NULL)`. -/
structure MainEnv where
  line : Option (List Char)
  mallocOk : Bool
  lockStatus : Int
  unlockStatus : Int
  now : Int
deriving DecidableEq, Repr

/-- The fatal exits through `errno_abort` and `err_abort` (from `errors.h`). -/
inductive Fatal where
  | allocateAlarm
  | lockMutex
  | unlockMutex
deriving DecidableEq, Repr

/-- How one iteration of the loop of `main` ends. -/
inductive Outcome where
  /-- Call `exit (0)` after `fgets` returned `NULL`. -/
  | exit
  /-- The process aborts. -/
  | abort (what : Fatal)
  /-- The loop goes round again with this list, having produced these events. -/
  | loop (alarm_list : List alarm_t) (trace : List Event)
deriving DecidableEq, Repr

/-- One iteration of the `while (1)` loop of `main`: the prompt, `fgets`, the
`strlen (line) <= 1` guard, `malloc`, then the test
`sscanf (...) < 2 || alarm->seconds < 0`, whose second operand is evaluated only when
both fields were assigned; on that test failing, the locked section that sets
`alarm->time = time(NULL) + alarm->seconds`, prints the reception line and inserts
the record. The `DEBUG` block is not compiled. -/
def main_iter (env : MainEnv) (alarm_list : List alarm_t) : Outcome :=
  match env.line with
  | none => Outcome.exit
  | some line =>
    if line.length ≤ 1 then Outcome.loop alarm_list [Event.prompt]
    else if !env.mallocOk then Outcome.abort Fatal.allocateAlarm
    else
      match sscanf line with
      | ScanResult.two seconds message =>
        if seconds < 0 then
          Outcome.loop alarm_list [Event.prompt, Event.malloc, Event.badCommand, Event.free]
        else if env.lockStatus ≠ 0 then Outcome.abort Fatal.lockMutex
        else
          let alarm : alarm_t := ⟨seconds, env.now + seconds, message⟩
          if env.unlockStatus ≠ 0 then Outcome.abort Fatal.unlockMutex
          else
            Outcome.loop (insertAlarm alarm alarm_list)
              ([Event.prompt, Event.malloc, Event.lock,
                Event.received (alarm.time - alarm.seconds) alarm.seconds alarm.message] ++
               insertAccesses alarm alarm_list ++ [Event.unlock])
      | _ => Outcome.loop alarm_list [Event.prompt, Event.malloc, Event.badCommand, Event.free]

/-! ## Runs of whole operations

A run here is a finite sequence of loop iterations of the two threads in which no
iteration starts before the previous one is over: the runs the program has when the
removal of `alarm_thread` never falls inside the insertion of `main`. The runs in
which it does are those of `Machine`, below. -/

/-- An operation on the pending list: the insertion of `main` or the removal of
`alarm_thread`. -/
inductive QueueOp where
  | insert (alarm : alarm_t)
  | remove
deriving DecidableEq, Repr

/-- The pending list together with the records removed so far, oldest first. -/
structure QueueState where
  queue : List alarm_t
  removed : List alarm_t
deriving DecidableEq, Repr

/-- The state before any operation: nothing queued, nothing removed. -/
def QueueState.empty : QueueState := ⟨[], []⟩

/-- Apply one operation. -/
def applyOp (s : QueueState) : QueueOp → QueueState
  | .insert alarm => ⟨insertAlarm alarm s.queue, s.removed⟩
  | .remove =>
    match removeEarliest s.queue with
    | (none, rest) => ⟨rest, s.removed⟩
    | (some alarm, rest) => ⟨rest, s.removed ++ [alarm]⟩

/-- Apply a sequence of operations, first to last. -/
def runOps (ops : List QueueOp) (s : QueueState) : QueueState := ops.foldl applyOp s

/-- The records a sequence of operations inserts, in order. -/
def insertedBy : List QueueOp → List alarm_t
  | [] => []
  | .insert alarm :: ops => alarm :: insertedBy ops
  | .remove :: ops => insertedBy ops

/-- A step of the running program: an iteration of the loop of `main` or an
iteration of the loop of `alarm_thread`. -/
inductive ProgStep where
  | submit (env : MainEnv)
  | dispatch (now : Int)
deriving DecidableEq, Repr

/-- The pending list after a sequence of program steps; the steps after the process
has exited or aborted do not run. -/
def runProg : List ProgStep → List alarm_t → List alarm_t
  | [], q => q
  | .submit env :: steps, q =>
    match main_iter env q with
    | Outcome.loop q2 _ => runProg steps q2
    | _ => q
  | .dispatch now :: steps, q => runProg steps (alarm_thread_iter now q).1

/-! ## Statement by statement: the two threads on the shared heap

`main` holds `alarm_mutex` from line 189 to line 232; `alarm_thread` never asks for
it, so nothing keeps its statements from running between two statements of the
insertion. The machine below runs lines 204-224 and lines 122-144 one statement at a
time, in any order of the two threads. Nodes live in a heap and are named by their
index in it; `none` is `NULL`. -/

/-- A heap cell holding an `alarm_t`: its `link` and its other fields. -/
structure Node where
  link : Option Nat
  alarm : alarm_t
deriving DecidableEq, Repr

/-- What `last` can point at: the list header `alarm_list`, or the `link` field of a
node. -/
inductive Loc where
  | header
  | linkOf (node : Nat)
deriving DecidableEq, Repr

/-- The statement `main` is about to run, by line number; `l232` is the unlock, after
the insertion. -/
inductive MainPc where
  | l204 | l205 | l206 | l207 | l208 | l209 | l212 | l213 | l221 | l222 | l223 | l232
deriving DecidableEq, Repr

/-- The statement `alarm_thread` is about to run, by line number; `l143` stands for
the `printf` and the `pthread_create` of lines 143-144. -/
inductive AlarmPc where
  | l122 | l132 | l135 | l143
deriving DecidableEq, Repr

/-- The two threads. -/
inductive Thread where
  | main
  | alarmThread
deriving DecidableEq, Repr

/-- The shared memory (`heap`, `alarm_list`), the locals of `main` (`alarm`, `last`,
`next`), the local `alarm` of `alarm_thread`, and the nodes handed to
`pthread_create` so far. -/
structure Machine where
  heap : List Node
  alarm_list : Option Nat
  mpc : MainPc
  mainAlarm : Nat
  last : Loc
  next : Option Nat
  apc : AlarmPc
  threadAlarm : Option Nat
  created : List Nat
deriving DecidableEq, Repr

/-- The `link` field of a node. -/
def linkAt (heap : List Node) (n : Nat) : Option Nat :=
  match heap[n]? with
  | some node => node.link
  | none => none

/-- The `time` field of a node. -/
def timeAt (heap : List Node) (n : Nat) : Int :=
  match heap[n]? with
  | some node => node.alarm.time
  | none => 0

/-- The heap after `node->link = v`. -/
def setLink (heap : List Node) (n : Nat) (v : Option Nat) : List Node :=
  match heap[n]? with
  | some node => heap.set n { node with link := v }
  | none => heap

/-- The value `*last`. -/
def readLast (m : Machine) : Option Nat :=
  match m.last with
  | Loc.header => m.alarm_list
  | Loc.linkOf n => linkAt m.heap n

/-- The machine after `*last = alarm`. -/
def writeLast (m : Machine) : Machine :=
  match m.last with
  | Loc.header => { m with alarm_list := some m.mainAlarm }
  | Loc.linkOf n => { m with heap := setLink m.heap n (some m.mainAlarm) }

/-- One statement of the insertion of `main` (lines 204-224). -/
def mainStep (m : Machine) : Machine :=
  match m.mpc with
  | MainPc.l204 => { m with last := Loc.header, mpc := MainPc.l205 }
  | MainPc.l205 => { m with next := readLast m, mpc := MainPc.l206 }
  | MainPc.l206 =>
    match m.next with
    | some _ => { m with mpc := MainPc.l207 }
    | none => { m with mpc := MainPc.l221 }
  | MainPc.l207 =>
    match m.next with
    | some n =>
      if timeAt m.heap n ≥ timeAt m.heap m.mainAlarm then { m with mpc := MainPc.l208 }
      else { m with mpc := MainPc.l212 }
    | none => m
  | MainPc.l208 => { m with heap := setLink m.heap m.mainAlarm m.next, mpc := MainPc.l209 }
  | MainPc.l209 => { writeLast m with mpc := MainPc.l221 }
  | MainPc.l212 =>
    match m.next with
    | some n => { m with last := Loc.linkOf n, mpc := MainPc.l213 }
    | none => m
  | MainPc.l213 =>
    match m.next with
    | some n => { m with next := linkAt m.heap n, mpc := MainPc.l206 }
    | none => m
  | MainPc.l221 =>
    match m.next with
    | none => { m with mpc := MainPc.l222 }
    | some _ => { m with mpc := MainPc.l232 }
  | MainPc.l222 => { writeLast m with mpc := MainPc.l223 }
  | MainPc.l223 => { m with heap := setLink m.heap m.mainAlarm none, mpc := MainPc.l232 }
  | MainPc.l232 => m

/-- One statement of the loop of `alarm_thread` (lines 122-144). -/
def alarmStep (m : Machine) : Machine :=
  match m.apc with
  | AlarmPc.l122 => { m with threadAlarm := m.alarm_list, apc := AlarmPc.l132 }
  | AlarmPc.l132 =>
    match m.threadAlarm with
    | none => { m with apc := AlarmPc.l122 }
    | some _ => { m with apc := AlarmPc.l135 }
  | AlarmPc.l135 =>
    match m.threadAlarm with
    | some a => { m with alarm_list := linkAt m.heap a, apc := AlarmPc.l143 }
    | none => m
  | AlarmPc.l143 =>
    match m.threadAlarm with
    | some a => { m with created := m.created ++ [a], apc := AlarmPc.l122 }
    | none => m

/-- One statement of the named thread. -/
def Machine.step (m : Machine) : Thread → Machine
  | Thread.main => mainStep m
  | Thread.alarmThread => alarmStep m

/-- The machine after a schedule: the threads named take one statement each, in
order. -/
def Machine.run (schedule : List Thread) (m : Machine) : Machine :=
  schedule.foldl Machine.step m

/-- The nodes chained from a pointer, following at most `fuel` links. -/
def chain : Nat → List Node → Option Nat → List Nat
  | 0, _, _ => []
  | _ + 1, _, none => []
  | fuel + 1, heap, some n => n :: chain fuel heap (linkAt heap n)

/-- The nodes of the pending list: those chained from `alarm_list`. -/
def Machine.queued (m : Machine) : List Nat := chain (m.heap.length + 1) m.heap m.alarm_list

/-- The records held by a list of nodes. -/
def Machine.records (m : Machine) (nodes : List Nat) : List alarm_t :=
  nodes.filterMap (fun n => (m.heap[n]?).map Node.alarm)

/-! ## Predicates on traces and lists -/

/-- The notifications among the events: the lines that report an alarm. -/
def Event.isNotification : Event → Bool
  | .received _ _ _ => true
  | .retrieved _ _ _ => true
  | .tick _ _ => true
  | .expired _ _ _ => true
  | _ => false

/-- Whether every access to the shared list in a trace happens while the mutex is
held; `held` says whether it is held at the start of the trace. -/
def lockDisciplined : Bool → List Event → Bool
  | _, [] => true
  | _, Event.lock :: es => lockDisciplined true es
  | _, Event.unlock :: es => lockDisciplined false es
  | held, Event.listRead :: es => held && lockDisciplined held es
  | held, Event.listWrite :: es => held && lockDisciplined held es
  | held, _ :: es => lockDisciplined held es

/-- A line of 67 characters: `1`, a blank, 64 times `a`, and the new-line. -/
def longLine : List Char := ['1', ' '] ++ List.replicate 64 'a' ++ ['\n']

/-- The queued record of the lost-record run: expires at time 100. -/
def recordX : alarm_t := ⟨5, 100, ['X']⟩

/-- The record being inserted in the lost-record run: expires at time 200. -/
def recordN : alarm_t := ⟨100, 200, ['N']⟩

/-- The start of the lost-record run: `recordX` queued alone as node 0, `main` about
to insert node 1, which holds `recordN` and whose `link` is not assigned yet (shown
as `none`; no statement of the run reads it), and `alarm_thread` at the top of its
loop. -/
def lostStart : Machine :=
  { heap := [⟨none, recordX⟩, ⟨none, recordN⟩], alarm_list := some 0,
    mpc := MainPc.l204, mainAlarm := 1, last := Loc.header, next := none,
    apc := AlarmPc.l122, threadAlarm := none, created := [] }

/-- The schedule of the lost-record run: `main` runs lines 204-212, `alarm_thread`
runs a whole iteration (lines 122-144), `main` runs lines 213-223. -/
def lostSchedule : List Thread :=
  List.replicate 5 Thread.main ++ List.replicate 4 Thread.alarmThread ++
    List.replicate 5 Thread.main

/-- The same statements with the insertion over before the removal starts. -/
def wholeSchedule : List Thread :=
  List.replicate 10 Thread.main ++ List.replicate 4 Thread.alarmThread

/-- The input line `2147483648 m`. -/
def lineBig : List Char := ['2', '1', '4', '7', '4', '8', '3', '6', '4', '8', ' ', 'm', '\n']

/-- The input line `-4294967295 m`. -/
def lineWrap : List Char :=
  ['-', '4', '2', '9', '4', '9', '6', '7', '2', '9', '5', ' ', 'm', '\n']

/-- A record expiring at time 105. -/
def tieA : alarm_t := ⟨5, 105, ['A']⟩

/-- Another record expiring at time 105, submitted after `tieA`. -/
def tieB : alarm_t := ⟨5, 105, ['B']⟩

/-! ## The insertion: position, content, order -/

/-- The insertion as a split of the list at the longest prefix of earlier times. -/
theorem insertAlarm_eq_split (r : alarm_t) (q : List alarm_t) :
    insertAlarm r q =
      q.takeWhile (fun x => decide (x.time < r.time)) ++
        r :: q.dropWhile (fun x => decide (x.time < r.time)) := by
  induction q with
  | nil => simp [insertAlarm]
  | cons x xs ih =>
    by_cases h : x.time ≥ r.time
    · have h2 : ¬ x.time < r.time := by omega
      simp [insertAlarm, h, h2, List.takeWhile_cons, List.dropWhile_cons]
    · have h2 : x.time < r.time := by omega
      simp [insertAlarm, h, h2, List.takeWhile_cons, List.dropWhile_cons, ih]

/-- The insertion adds the record and nothing else. -/
theorem insertAlarm_perm (r : alarm_t) (q : List alarm_t) :
    (insertAlarm r q).Perm (r :: q) := by
  induction q with
  | nil => simp [insertAlarm]
  | cons x xs ih =>
    by_cases h : x.time ≥ r.time
    · simp [insertAlarm, h]
    · simp only [insertAlarm, h, if_false]
      exact (List.Perm.cons x ih).trans (List.Perm.swap r x xs)

/-- The insertion lengthens the list by one. -/
theorem length_insertAlarm (r : alarm_t) (q : List alarm_t) :
    (insertAlarm r q).length = q.length + 1 := by
  rw [(insertAlarm_perm r q).length_eq, List.length_cons]

/-- C6 (insert position): the insertion puts the record right after the longest
prefix of the list whose times are strictly less than the record's, that is right
before the first node, from the head, whose time is not strictly less (at the tail
when there is none), and the other nodes keep their order: the list without the
record is the list before the insertion. -/
theorem insert_position (r : alarm_t) (q : List alarm_t) :
    insertAlarm r q =
        q.takeWhile (fun x => decide (x.time < r.time)) ++ [r] ++
          q.dropWhile (fun x => decide (x.time < r.time)) ∧
      (∃ pre post, q = pre ++ post ∧ insertAlarm r q = pre ++ r :: post ∧
        (∀ x ∈ pre, x.time < r.time) ∧ (∀ y, post.head? = some y → ¬ y.time < r.time)) := by
  have hsplit := insertAlarm_eq_split r q
  refine ⟨by simpa using hsplit, _, _, (List.takeWhile_append_dropWhile _ q).symm, hsplit, ?_, ?_⟩
  · intro x hx
    simpa using List.mem_takeWhile_imp hx
  · intro y hy
    have := List.head?_dropWhile_not (fun x : alarm_t => decide (x.time < r.time)) q
    rw [hy] at this
    simpa using this

/-- What a run from any state conserves. -/
theorem runOps_perm (ops : List QueueOp) (s : QueueState) :
    ((runOps ops s).removed ++ (runOps ops s).queue).Perm
      (insertedBy ops ++ (s.removed ++ s.queue)) := by
  induction ops generalizing s with
  | nil => simp [runOps, insertedBy]
  | cons op ops ih =>
    have h := ih (applyOp s op)
    change ((runOps ops (applyOp s op)).removed ++ (runOps ops (applyOp s op)).queue).Perm _
    refine h.trans ?_
    cases op with
    | insert alarm =>
      simp only [insertedBy, applyOp]
      have h1 : (s.removed ++ insertAlarm alarm s.queue).Perm (alarm :: (s.removed ++ s.queue)) :=
        ((insertAlarm_perm alarm s.queue).append_left s.removed).trans
          List.perm_middle
      exact (h1.append_left (insertedBy ops)).trans List.perm_middle
    | remove =>
      cases hq : s.queue with
      | nil => simp [insertedBy, applyOp, removeEarliest, hq]
      | cons x xs => simp [insertedBy, applyOp, removeEarliest, hq]

/-- Removing `n` times takes the first `n` records of the list, in list order. -/
theorem runOps_replicate_remove (n : Nat) (q removed : List alarm_t) :
    runOps (List.replicate n QueueOp.remove) ⟨q, removed⟩ =
      ⟨q.drop n, removed ++ q.take n⟩ := by
  induction n generalizing q removed with
  | zero => simp [runOps]
  | succ n ih =>
    cases q with
    | nil =>
      have := ih [] removed
      simpa [List.replicate_succ, runOps, applyOp, removeEarliest] using this
    | cons x xs =>
      have := ih xs (removed ++ [x])
      simpa [List.replicate_succ, runOps, applyOp, removeEarliest] using this

/-- Runs of whole operations conserve the records: after every finite sequence of
insertions and removals that do not overlap, from the empty list, the multiset of
the records inserted is the multiset of the records removed plus that of the records
still queued; an insertion lengthens the list by one; a removal on a non-empty list
returns its head and shortens the list by one. -/
theorem whole_operations_conserve (ops : List QueueOp) :
    ((insertedBy ops : List alarm_t) : Multiset alarm_t) =
        ((runOps ops QueueState.empty).removed : Multiset alarm_t) +
          ((runOps ops QueueState.empty).queue : Multiset alarm_t) ∧
      (∀ (r : alarm_t) (q : List alarm_t), (insertAlarm r q).length = q.length + 1) ∧
      (∀ (r : alarm_t) (rest : List alarm_t),
        (removeEarliest (r :: rest)).1 = some r ∧
          (removeEarliest (r :: rest)).2.length + 1 = (r :: rest).length) := by
  refine ⟨?_, length_insertAlarm, fun r rest => ⟨rfl, rfl⟩⟩
  rw [Multiset.coe_add, Multiset.coe_eq_coe]
  simpa [QueueState.empty] using (runOps_perm ops QueueState.empty).symm

/-! ## The removal inside the insertion -/

/-- The statements of the insertion run alone link node 1 behind node 0, as
`insertAlarm` does with the records. -/
theorem machine_insertion_alone :
    (Machine.run (List.replicate 10 Thread.main) lostStart).mpc = MainPc.l232 ∧
      (Machine.run (List.replicate 10 Thread.main) lostStart).queued = [0, 1] ∧
      (Machine.run (List.replicate 10 Thread.main) lostStart).records
          (Machine.run (List.replicate 10 Thread.main) lostStart).queued =
        insertAlarm recordN [recordX] := by
  decide

/-- C5 (conservation), evaluated: `recordX` (time 100) is queued and `main` inserts
`recordN` (time 200). `main` runs lines 204-212 and holds `last = &X->link`;
`alarm_thread`, which takes no lock, runs lines 122-144 and unlinks X; `main` runs
lines 213-223 and links N behind X. Both threads are then between operations, X has
been removed once, the pending list is empty, and N is neither queued nor removed:
the records inserted are not the records removed plus the records queued. With the
same statements and the insertion over before the removal starts, X is removed and N
is queued. -/
theorem overlapping_removal_loses_record :
    lostStart.records lostStart.queued = [recordX] ∧
      (Machine.run lostSchedule lostStart).mpc = MainPc.l232 ∧
      (Machine.run lostSchedule lostStart).apc = AlarmPc.l122 ∧
      (Machine.run lostSchedule lostStart).records
          (Machine.run lostSchedule lostStart).created = [recordX] ∧
      (Machine.run lostSchedule lostStart).records
          (Machine.run lostSchedule lostStart).queued = [] ∧
      ¬ List.Perm [recordX, recordN]
          ((Machine.run lostSchedule lostStart).records
              (Machine.run lostSchedule lostStart).created ++
            (Machine.run lostSchedule lostStart).records
              (Machine.run lostSchedule lostStart).queued) ∧
      (Machine.run wholeSchedule lostStart).records
          (Machine.run wholeSchedule lostStart).created = [recordX] ∧
      (Machine.run wholeSchedule lostStart).records
          (Machine.run wholeSchedule lostStart).queued = [recordN] := by
  refine ⟨by decide, by decide, by decide, by decide, by decide, ?_, by decide, by decide⟩
  have h1 : (Machine.run lostSchedule lostStart).records
      (Machine.run lostSchedule lostStart).created = [recordX] := by decide
  have h2 : (Machine.run lostSchedule lostStart).records
      (Machine.run lostSchedule lostStart).queued = [] := by decide
  rw [h1, h2]
  intro hperm
  have := hperm.length_eq
  simp at this

/-! ## Records of equal expiration time -/

/-- The insertion walks past a prefix of strictly earlier records. -/
theorem insertAlarm_append_of_lt (r : alarm_t) (pre l : List alarm_t)
    (h : ∀ x ∈ pre, x.time < r.time) :
    insertAlarm r (pre ++ l) = pre ++ insertAlarm r l := by
  induction pre with
  | nil => rfl
  | cons x xs ih =>
    have hx : ¬ x.time ≥ r.time := by
      have := h x (List.mem_cons_self x xs)
      omega
    have ih2 := ih (fun y hy => h y (List.mem_cons_of_mem x hy))
    rw [List.cons_append, insertAlarm, if_neg hx, ih2, List.cons_append]

/-- Inserting `A` and then `B` of the same expiration time puts `B` right in front
of `A`. -/
theorem insertAlarm_twice_equal (q : List alarm_t) (A B : alarm_t) (h : A.time = B.time) :
    insertAlarm B (insertAlarm A q) =
      q.takeWhile (fun x => decide (x.time < A.time)) ++
        B :: A :: q.dropWhile (fun x => decide (x.time < A.time)) := by
  rw [insertAlarm_eq_split A q, insertAlarm_append_of_lt]
  · have hA : A.time ≥ B.time := by omega
    simp only [insertAlarm, hA, if_true]
  · intro x hx
    have := List.mem_takeWhile_imp hx
    simp only [decide_eq_true_eq] at this
    omega

/-- C3, as stated, fails: `tieA` and then `tieB`, of the same expiration time 105,
are inserted into the empty list, and the two removals that follow return `tieB`
first and `tieA` second. -/
theorem tie_break_counterexample :
    tieA.time = tieB.time ∧ tieA ≠ tieB ∧
      runOps [QueueOp.insert tieA, QueueOp.insert tieB, QueueOp.remove, QueueOp.remove]
        QueueState.empty = ⟨[], [tieB, tieA]⟩ := by
  decide

/-- C3, amended (tie-break): for every list and every two records `A` and `B` of
the same expiration time, inserting `A` and then `B` with no removal in between
places `B` immediately in front of `A`, after the nodes of strictly earlier time,
so the removals that empty the list return `B` immediately before `A`: among
records of equal expiration the one submitted last is served first. -/
theorem tie_break_last_first (q : List alarm_t) (A B : alarm_t) (h : A.time = B.time) :
    insertAlarm B (insertAlarm A q) =
        q.takeWhile (fun x => decide (x.time < A.time)) ++
          B :: A :: q.dropWhile (fun x => decide (x.time < A.time)) ∧
      (runOps (List.replicate (q.length + 2) QueueOp.remove)
          ⟨insertAlarm B (insertAlarm A q), []⟩).removed =
        q.takeWhile (fun x => decide (x.time < A.time)) ++
          B :: A :: q.dropWhile (fun x => decide (x.time < A.time)) := by
  refine ⟨insertAlarm_twice_equal q A B h, ?_⟩
  rw [runOps_replicate_remove]
  have hlen : (insertAlarm B (insertAlarm A q)).length = q.length + 2 := by
    rw [length_insertAlarm, length_insertAlarm]
  rw [← hlen, List.take_length, insertAlarm_twice_equal q A B h]
  simp

/-- The amended tie-break at `tieA`, `tieB` and a list holding an earlier and a later
record. -/
theorem tie_break_last_first_witness :
    tieA.time = tieB.time ∧
      insertAlarm tieB (insertAlarm tieA [⟨1, 101, ['x']⟩, ⟨9, 109, ['y']⟩]) =
        [⟨1, 101, ['x']⟩, tieB, tieA, ⟨9, 109, ['y']⟩] :=
  ⟨by decide,
   (tie_break_last_first [⟨1, 101, ['x']⟩, ⟨9, 109, ['y']⟩] tieA tieB (by decide)).1.trans
     (by decide)⟩

/-! ## The countdown of a per-alarm thread -/

/-- The loop runs once for each unit between `start` and `end_`. -/
theorem countdown_eq (givenAlarm : alarm_t) (n : Nat) (start end_ : Int)
    (h : end_ - start = n) :
    countdown givenAlarm start end_ =
      (List.replicate n
        [Event.sleep 1, Event.tick givenAlarm.seconds givenAlarm.message]).flatten := by
  induction n generalizing start with
  | zero =>
    rw [countdown, if_neg (by omega)]
    rfl
  | succ n ih =>
    rw [countdown, if_pos (by omega), ih (start + 1) (by omega)]
    simp [List.replicate_succ]

/-- The notifications of a run of sleep-and-tick pairs are the ticks. -/
theorem filter_ticks (n : Nat) (seconds : Int) (message : List Char) :
    ((List.replicate n [Event.sleep 1, Event.tick seconds message]).flatten).filter
        Event.isNotification =
      List.replicate n (Event.tick seconds message) := by
  induction n with
  | zero => rfl
  | succ n ih =>
    simp only [List.replicate_succ, List.flatten_cons, List.filter_append, ih]
    rfl

/-- C4 (tick count): for a record of delay `s ≥ 0` and whatever the two calls of
`time(NULL)` return, the per-alarm thread ends having slept and printed the periodic
line exactly `s` times, each line carrying the record's delay and message, and then
printed exactly one expiration line; for `s = 0` it prints the expiration line only. -/
theorem tick_count (s : Nat) (time : Int) (message : List Char) (clock0 clock1 : Int) :
    new_thread_function ⟨s, time, message⟩ clock0 clock1 =
        (List.replicate s [Event.sleep 1, Event.tick s message]).flatten ++
          [Event.expired clock1 s message, Event.free] ∧
      (new_thread_function ⟨s, time, message⟩ clock0 clock1).filter Event.isNotification =
        List.replicate s (Event.tick s message) ++ [Event.expired clock1 s message] ∧
      new_thread_function ⟨0, time, message⟩ clock0 clock1 =
        [Event.expired clock1 0 message, Event.free] := by
  have h : ∀ n : Nat, new_thread_function ⟨n, time, message⟩ clock0 clock1 =
      (List.replicate n [Event.sleep 1, Event.tick n message]).flatten ++
        [Event.expired clock1 n message, Event.free] := by
    intro n
    simp only [new_thread_function]
    rw [countdown_eq _ n clock0 (clock0 + (n : Int)) (by omega)]
  refine ⟨h s, ?_, by simpa using h 0⟩
  rw [h s, List.filter_append, filter_ticks]
  rfl

/-! ## The head of a sorted list -/

/-- A successful `%64[^\n]` stores between 1 and 64 characters, none a new-line. -/
theorem scanSet64_spec {input m : List Char} (h : scanSet64 input = some m) :
    1 ≤ m.length ∧ m.length ≤ 64 ∧ m.length ≤ input.length ∧ '\n' ∉ m := by
  simp only [scanSet64] at h
  split at h
  · exact absurd h (by simp)
  · rename_i hm
    simp only [Option.some.injEq] at h
    subst h
    refine ⟨List.length_pos.2 hm, ?_, ?_, ?_⟩
    · rw [List.length_take]
      omega
    · rw [List.length_take]
      have := (List.takeWhile_sublist (fun c : Char => decide (c ≠ '\n')) (l := input)).length_le
      omega
    · intro hmem
      have := List.mem_takeWhile_imp (List.mem_of_mem_take hmem)
      simp at this

/-- The message of a line that yields both fields has at most 64 characters. -/
theorem sscanf_two_message {line message : List Char} {seconds : Int}
    (h : sscanf line = ScanResult.two seconds message) :
    1 ≤ message.length ∧ message.length ≤ 64 := by
  unfold sscanf at h
  split at h
  · exact absurd h (by simp)
  · split at h
    · exact absurd h (by simp)
    · split at h
      · exact absurd h (by simp)
      · rename_i m hm
        simp only [ScanResult.two.injEq] at h
        obtain ⟨-, rfl⟩ := h
        exact ⟨(scanSet64_spec hm).1, (scanSet64_spec hm).2.1⟩

/-! ## One iteration of the command loop -/

/-- What a completed iteration of the command loop did. -/
theorem main_iter_loop_cases {env : MainEnv} {q q2 : List alarm_t} {tr : List Event}
    (h : main_iter env q = Outcome.loop q2 tr) :
    (q2 = q ∧ (tr = [Event.prompt] ∨
        tr = [Event.prompt, Event.malloc, Event.badCommand, Event.free])) ∨
      ∃ s m, 0 ≤ s ∧ q2 = insertAlarm ⟨s, env.now + s, m⟩ q ∧
        tr = [Event.prompt, Event.malloc, Event.lock, Event.received env.now s m] ++
          insertAccesses ⟨s, env.now + s, m⟩ q ++ [Event.unlock] := by
  unfold main_iter at h
  split at h
  · exact absurd h (by simp)
  · split at h
    · simp only [Outcome.loop.injEq] at h
      exact Or.inl ⟨h.1.symm, Or.inl h.2.symm⟩
    · split at h
      · exact absurd h (by simp)
      · split at h
        · rename_i s m hs
          split at h
          · simp only [Outcome.loop.injEq] at h
            exact Or.inl ⟨h.1.symm, Or.inr h.2.symm⟩
          · split at h
            · exact absurd h (by simp)
            · split at h
              · exact absurd h (by simp)
              · simp only [Outcome.loop.injEq] at h
                refine Or.inr ⟨s, m, by omega, h.1.symm, ?_⟩
                rw [← h.2]
                simp
        · simp only [Outcome.loop.injEq] at h
          exact Or.inl ⟨h.1.symm, Or.inr h.2.symm⟩

/-- The accesses of the insertion loop followed by the unlock respect the mutex. -/
theorem lockDisciplined_insertAccesses (alarm : alarm_t) (q : List alarm_t) :
    lockDisciplined true (insertAccesses alarm q ++ [Event.unlock]) = true := by
  induction q with
  | nil => rfl
  | cons x xs ih =>
    by_cases hx : x.time ≥ alarm.time
    · simp only [insertAccesses, hx, if_true]
      rfl
    · simp only [insertAccesses, hx, if_false, List.cons_append, lockDisciplined, ih,
        Bool.and_self]

/-- The values `%d` stores for `2147483648` and `-4294967295`: the first line is
reported as a bad command, the second is queued with a delay of 1. -/
theorem int_conversion_examples :
    sscanf lineBig = ScanResult.two (-2147483648) ['m'] ∧
      main_iter ⟨some lineBig, true, 0, 0, 0⟩ [] =
        Outcome.loop [] [Event.prompt, Event.malloc, Event.badCommand, Event.free] ∧
      sscanf lineWrap = ScanResult.two 1 ['m'] ∧
      runProg [ProgStep.submit ⟨some lineWrap, true, 0, 0, 0⟩] [] = [⟨1, 1, ['m']⟩] := by
  decide

/-- C8 (lock discipline), evaluated: every completed iteration of the command loop
of `main` accesses the list only between its lock and its unlock, and every
iteration of the loop of `alarm_thread` reads the list, and on a non-empty list
writes it, without any lock or unlock. -/
theorem lock_discipline_broken_by_alarm_thread :
    (∀ (env : MainEnv) (q q2 : List alarm_t) (tr : List Event),
        main_iter env q = Outcome.loop q2 tr → lockDisciplined false tr = true) ∧
      (∀ (now : Int) (q : List alarm_t),
        lockDisciplined false (alarm_thread_iter now q).2 = false ∧
          Event.listRead ∈ (alarm_thread_iter now q).2 ∧
          Event.lock ∉ (alarm_thread_iter now q).2 ∧
          Event.unlock ∉ (alarm_thread_iter now q).2) ∧
      (∀ (now : Int) (alarm : alarm_t) (rest : List alarm_t),
        Event.listWrite ∈ (alarm_thread_iter now (alarm :: rest)).2) := by
  refine ⟨?_, ?_, ?_⟩
  · intro env q q2 tr h
    rcases main_iter_loop_cases h with ⟨-, rfl | rfl⟩ | ⟨s, m, -, -, rfl⟩
    · rfl
    · rfl
    · simp only [List.cons_append, List.nil_append, List.append_assoc, lockDisciplined]
      exact lockDisciplined_insertAccesses _ q
  · intro now q
    cases q with
    | nil => simp [alarm_thread_iter, removeEarliest, lockDisciplined]
    | cons x xs => simp [alarm_thread_iter, removeEarliest, lockDisciplined]
  · intro now alarm rest
    simp [alarm_thread_iter, removeEarliest]

/-- C9 (idle suspension), evaluated: an iteration of the loop of `alarm_thread` on
the empty list reads `alarm_list` and does nothing else, and no iteration on any
list contains a call of `sleep`. -/
theorem idle_iteration_does_not_sleep :
    (∀ now : Int, alarm_thread_iter now [] = ([], [Event.listRead])) ∧
      (∀ (now n : Int) (q : List alarm_t), Event.sleep n ∉ (alarm_thread_iter now q).2) := by
  refine ⟨fun now => rfl, ?_⟩
  intro now n q
  cases q with
  | nil => simp [alarm_thread_iter, removeEarliest]
  | cons x xs => simp [alarm_thread_iter, removeEarliest]

/-! ## The length of the stored message -/

/-- C10 (message bound), evaluated: the line `longLine`, of 67 characters and so
within what `fgets` hands over, is accepted and the record inserted for it holds a
message of 64 characters, one more than the 63 that fit `char message[64]` with the
terminator; 64 is the most any accepted line stores. -/
theorem message_overflows_field :
    longLine.length = 67 ∧
      sscanf longLine = ScanResult.two 1 (List.replicate 64 'a') ∧
      main_iter ⟨some longLine, true, 0, 0, 0⟩ [] =
        Outcome.loop [⟨1, 1, List.replicate 64 'a'⟩]
          [Event.prompt, Event.malloc, Event.lock,
            Event.received 0 1 (List.replicate 64 'a'),
            Event.listRead, Event.listWrite, Event.unlock] ∧
      ¬ (List.replicate 64 'a').length ≤ 63 ∧
      (∀ (line : List Char) (s : Int) (m : List Char),
        sscanf line = ScanResult.two s m → m.length ≤ 64) := by
  refine ⟨by decide, by decide, by decide, by decide, ?_⟩
  intro line s m h
  exact (sscanf_two_message h).2

/-! ## Earliest first, on the queue and on the program -/

end My_Alarm
